import Mathlib

/-!
Verification development for the Bilingual_MCP terminology-checking core.

The definitions below are a shallow embedding of the Python modules
`src/app/core/terminology.py` and `src/app/core/database.py`.

Modelling conventions:
* Python strings are `List Char`; `text[s:e]` is `pySlice`.
* Python's case-insensitive operations (`re.IGNORECASE`, SQLite `LOWER`)
  are modelled uniformly with `Char.toLower` applied characterwise.
* `re.finditer` of the escaped literal `re.escape(term)` with `re.IGNORECASE`
  is `scanOccs`: the leftmost, non-overlapping, case-insensitive literal
  occurrences of the term, scanning left to right (a zero-width match
  advances the scan position by one, as in Python's `re`).
* The SQL filter `LOWER(?) LIKE '%' || LOWER(source_term) || '%'` is
  `sqlLike` over the `%`/`_` wildcard language of SQLite's LIKE.
* The general regular-expression engine used by `find_rule_violations`
  (`re.compile(pattern, re.IGNORECASE)` plus `finditer`) is modelled as an
  uninterpreted `RegexEngine`: `apply pattern text = none` models an
  `re.error` on compilation, `some spans` the list of match spans.  The
  `valid` field records the `re` module guarantee that every reported match
  span lies inside the text.  `match.group()` is by definition of the `re`
  module the slice `text[match.start():match.end()]`, which is how the
  issue records below obtain their `original` field.
* The SQLite store is a pure state `DBState` (list of term rows and rule
  rows); the on-disk file's existence is the `Option` in
  `ensure_database_exists`.
* The four concrete placeholder regexes of `_check_placeholders` are
  deterministic, so each is embedded as an explicit matcher function
  returning the length of the match at a given position, and `finditer`
  replays Python's left-to-right non-overlapping scan over them.
-/

/-- Characterwise lowercasing, modelling both Python `str.lower()` /
`re.IGNORECASE` and SQLite `LOWER` (both sides of every comparison are
lowered with the same function). -/
def lowerStr (s : List Char) : List Char := s.map Char.toLower

/-- Python's slice `t[s:e]` (for `0 ≤ s`, `e ≤ len t`). -/
def pySlice (t : List Char) (s e : Nat) : List Char := (t.take e).drop s

/-- The opening curly brace character (written via its code point). -/
def lbrace : Char := Char.ofNat 123

/-- The closing curly brace character (written via its code point). -/
def rbrace : Char := Char.ofNat 125

/-- `startsWith p s` : `p` is a literal prefix of `s` (character equality). -/
def startsWith : List Char → List Char → Bool
  | [], _ => true
  | _ :: _, [] => false
  | p :: ps, c :: cs => p == c && startsWith ps cs

/-- `isSubstr s t` : `s` occurs as a contiguous substring of `t`.
This is the spec-side notion "occurs as a substring" (applied to lowered
strings for the case-insensitive reading). -/
def isSubstr (s : List Char) : List Char → Bool
  | [] => s.isEmpty
  | c :: rest => startsWith s (c :: rest) || isSubstr s rest

/-- One issue dictionary, as produced by the checker.  The Python code uses
open dicts; the seven required attributes plus the optional `definition`
are modelled as a fixed record (`end` is `end_`, `type` is `type`). -/
structure Issue where
  type : List Char
  original : List Char
  suggestion : List Char
  start : Nat
  end_ : Nat
  severity : List Char
  reason : List Char
  source : List Char
  definition : List Char
  deriving DecidableEq, Repr

/-- The deduplication key of `TerminologyChecker._deduplicate_issues`:
`(issue["start"], issue["end"], issue["original"], issue["type"])`. -/
def dedupKey (i : Issue) : Nat × Nat × List Char × List Char :=
  (i.start, i.end_, i.original, i.type)

/-- Loop of `_deduplicate_issues`: `seen` is the set of keys already kept
(modelled as a list). -/
def dedupGo (seen : List (Nat × Nat × List Char × List Char)) :
    List Issue → List Issue
  | [] => []
  | i :: rest =>
    if dedupKey i ∈ seen then dedupGo seen rest
    else i :: dedupGo (dedupKey i :: seen) rest

/-- `TerminologyChecker._deduplicate_issues`: drop every issue whose
4-tuple key was already seen earlier in the list. -/
def deduplicate_issues (issues : List Issue) : List Issue := dedupGo [] issues

/-- Spec-side description of first-occurrence-wins deduplication: keep the
head, then recurse on the tail purged of the head's key. -/
def keepFirsts : List Issue → List Issue
  | [] => []
  | x :: xs =>
    x :: keepFirsts (xs.filter (fun y => !(dedupKey y == dedupKey x)))
termination_by l => l.length
decreasing_by
  exact Nat.lt_succ_of_le (List.length_filter_le _ _)

/-- Stable insertion (generic): place `x` before the first element `y`
with `le x y`.  Used both for the final by-`start` sort and for the SQL
`ORDER BY` of the term query. -/
def insertBy (le : α → α → Bool) (x : α) : List α → List α
  | [] => [x]
  | y :: ys => if le x y then x :: y :: ys else y :: insertBy le x ys

/-- Stable sort (insertion sort).  Python's `list.sort` is stable; any
stable sort produces the identical output list, so this is an exact model
of `issues.sort(key=lambda x: x["start"])` when instantiated with the
by-`start` comparison (stability and sortedness are proved below). -/
def sortBy (le : α → α → Bool) : List α → List α
  | [] => []
  | x :: xs => insertBy le x (sortBy le xs)

/-- The final sort of `check_text`: ascending by `start` only, stable. -/
def sortByStart (l : List Issue) : List Issue :=
  sortBy (fun a b => a.start ≤ b.start) l

/-- All positions of `text` (including `text.length`) at which the term
matches case-insensitively, in increasing order: the candidate match
positions of `re.finditer(re.escape(term), text, re.IGNORECASE)`. -/
def matchPositions (pat text : List Char) : List Nat :=
  (List.range (text.length + 1)).filter
    (fun p => startsWith (lowerStr pat) ((lowerStr text).drop p))

/-- Left-to-right selection of non-overlapping matches: keep a candidate
position iff it is not before the current scan position, then advance by
`step` (the match length, or 1 for a zero-width match, as in Python). -/
def selectFrom (step : Nat) : List Nat → Nat → List Nat
  | [], _ => []
  | p :: rest, minPos =>
    if p < minPos then selectFrom step rest minPos
    else p :: selectFrom step rest (p + step)

/-- The spans of `re.finditer(re.escape(term), text, re.IGNORECASE)`:
leftmost non-overlapping case-insensitive literal occurrences of `pat`. -/
def scanOccs (pat text : List Char) : List (Nat × Nat) :=
  (selectFrom (max pat.length 1) (matchPositions pat text) 0).map
    (fun p => (p, p + pat.length))

/-- SQLite `LIKE` pattern matching (`%` matches any sequence, `_` any one
character).  Both arguments are already lowered, so plain character
equality is used for literal characters. -/
def sqlLike : List Char → List Char → Bool
  | [], s => s.isEmpty
  | p :: ps, s =>
    if p = '%' then
      sqlLike ps s ||
        (match s with
         | [] => false
         | _ :: t => sqlLike (p :: ps) t)
    else
      match s with
      | [] => false
      | c :: t => if p = '_' then sqlLike ps t else p == c && sqlLike ps t
termination_by p s => (p.length, s.length)

/-- The LIKE pattern `'%' || s || '%'` used by the term query. -/
def likePattern (s : List Char) : List Char := '%' :: (s ++ ['%'])

/-- One row of the `terms` table (the `NOT NULL` columns plus the optional
ones used by the checker; SQL `NULL` in an optional text column is the
empty string, matching the `or ""` normalisations in the Python code). -/
structure Term where
  source_lang : List Char
  target_lang : List Char
  source_term : List Char
  target_term : List Char
  term_type : List Char
  domain : List Char
  definition : List Char
  deriving DecidableEq, Repr

/-- Strict lexicographic comparison by code point: SQLite's default BINARY
ordering of TEXT values (UTF-8 bytewise, equivalent to code-point order). -/
def strLt : List Char → List Char → Bool
  | [], [] => false
  | [], _ :: _ => true
  | _ :: _, [] => false
  | a :: as, b :: bs => if a == b then strLt as bs else a.toNat < b.toNat

/-- The `ORDER BY term_type, LENGTH(source_term) DESC` of the term query. -/
def termQueryLe (a b : Term) : Bool :=
  strLt a.term_type b.term_type ||
    (a.term_type == b.term_type && b.source_term.length ≤ a.source_term.length)

/-- The SQL `WHERE` clause of `find_term_suggestions`:
`source_lang = ? AND LOWER(?) LIKE '%' || LOWER(source_term) || '%'`. -/
def termSQLFilter (source_lang text : List Char) (t : Term) : Bool :=
  t.source_lang == source_lang &&
    sqlLike (likePattern (lowerStr t.source_term)) (lowerStr text)

/-- The issue dictionary built for one occurrence of a term
(`match.group()` is the slice of `text` at the match span). -/
def mkTermIssue (text : List Char) (t : Term) (s e : Nat) : Issue where
  type := "terminology_match".toList
  original := pySlice text s e
  suggestion := t.target_term
  start := s
  end_ := e
  severity :=
    if t.term_type == "preferred".toList then "info".toList
    else "warning".toList
  reason :=
    if t.domain = [] then "Terminology database suggestion".toList
    else "Terminology database suggestion (".toList ++ t.domain ++ [')']
  source := "database".toList
  definition := t.definition

/-- `TerminologyDatabase.find_term_suggestions`: rows passing the SQL
filter, in the query's `ORDER BY` order, then one issue per occurrence
found by the case-insensitive literal scan of the term over the text. -/
def find_term_suggestions (terms : List Term) (text source_lang : List Char) :
    List Issue :=
  (sortBy termQueryLe (terms.filter (termSQLFilter source_lang text))).flatMap
    (fun t => (scanOccs t.source_term text).map
      (fun se => mkTermIssue text t se.1 se.2))

/-- One row of the `rules` table. -/
structure Rule where
  language : List Char
  pattern : List Char
  replacement : List Char
  rule_type : List Char
  severity : List Char
  description : List Char
  deriving DecidableEq, Repr

/-- The general regular-expression engine of the `re` module, uninterpreted:
`apply pattern text = none` models `re.error` on compiling `pattern`;
`some spans` models the spans of `re.compile(pattern, re.IGNORECASE)
.finditer(text)`.  `valid` is the `re` guarantee
`0 ≤ m.start() ≤ m.end() ≤ len(text)` for every match `m`. -/
structure RegexEngine where
  apply : List Char → List Char → Option (List (Nat × Nat))
  valid : ∀ pat text spans, apply pat text = some spans →
    ∀ se ∈ spans, se.1 ≤ se.2 ∧ se.2 ≤ text.length

/-- The issue dictionary built for one rule-violation match. -/
def mkRuleIssue (text : List Char) (r : Rule) (s e : Nat) : Issue where
  type := r.rule_type
  original := pySlice text s e
  suggestion := r.replacement
  start := s
  end_ := e
  severity := r.severity
  reason :=
    if r.description = [] then
      "Rule-based suggestion: ".toList ++ r.pattern ++ " -> ".toList ++
        r.replacement
    else r.description
  source := "rules".toList
  definition := []

/-- `TerminologyDatabase.find_rule_violations`: for each rule of the
requested language, compile the pattern; on `re.error` skip the rule
(contributing nothing), otherwise emit one issue per match span. -/
def find_rule_violations (rules : List Rule) (engine : RegexEngine)
    (text language : List Char) : List Issue :=
  (rules.filter (fun r => r.language == language)).flatMap
    (fun r =>
      match engine.apply r.pattern text with
      | none => []
      | some spans => spans.map (fun se => mkRuleIssue text r se.1 se.2))

/-- First index of character `c` in a list, if any. -/
def indexOfChar (c : Char) : List Char → Option Nat
  | [] => none
  | d :: rest => if d == c then some 0 else (indexOfChar c rest).map (· + 1)

/-- Matcher for the pattern `\{[^}]*\}` at the head of the input: an open
brace, the (necessarily maximal) run of non-close-brace characters, then
the first close brace.  Returns the match length. -/
def matchBrace (t : List Char) : Option Nat :=
  match t with
  | c :: rest =>
    if c == lbrace then (indexOfChar rbrace rest).map (· + 2) else none
  | [] => none

/-- Matcher for `%[sd]` at the head of the input. -/
def matchPrintf : List Char → Option Nat
  | '%' :: c :: _ => if c == 's' || c == 'd' then some 2 else none
  | _ => none

/-- Matcher for `\$\{[^}]*\}` at the head of the input. -/
def matchShell (t : List Char) : Option Nat :=
  match t with
  | '$' :: c :: rest =>
    if c == lbrace then (indexOfChar rbrace rest).map (· + 3) else none
  | _ => none

/-- Matcher for `%\([^)]+\)[sd]` at the head of the input: the run of
non-close-paren characters must be non-empty, must end at the first close
paren, and must be followed by `s` or `d`. -/
def matchPyFormat : List Char → Option Nat
  | '%' :: '(' :: rest =>
    (match indexOfChar ')' rest with
     | none => none
     | some k =>
       if k == 0 then none
       else
         match rest[k + 1]? with
         | some c => if c == 's' || c == 'd' then some (k + 4) else none
         | none => none)
  | _ => none

/-- All `(position, length)` pairs at which a matcher matches, in
increasing position order (positions `0 … text.length`). -/
def spanCandidates (m : List Char → Option Nat) (text : List Char) :
    List (Nat × Nat) :=
  (List.range (text.length + 1)).filterMap
    (fun p => (m (text.drop p)).map (fun len => (p, len)))

/-- Left-to-right non-overlapping selection over `(position, length)`
candidates, as performed by `re.finditer` (zero-width advances by one). -/
def selectSpans : List (Nat × Nat) → Nat → List (Nat × Nat)
  | [], _ => []
  | pl :: rest, minPos =>
    if pl.1 < minPos then selectSpans rest minPos
    else (pl.1, pl.1 + pl.2) :: selectSpans rest (pl.1 + max pl.2 1)

/-- The spans of `re.finditer(pattern, text)` for one deterministic
placeholder pattern given by matcher `m`. -/
def finditer (m : List Char → Option Nat) (text : List Char) :
    List (Nat × Nat) :=
  selectSpans (spanCandidates m text) 0

/-- The four placeholder pattern families of `_check_placeholders`, each
with its description string, in source order. -/
def placeholderFamilies : List ((List Char → Option Nat) × List Char) :=
  [(matchBrace, "Curly brace placeholder".toList),
   (matchPrintf, "Printf-style placeholder".toList),
   (matchShell, "Shell-style placeholder".toList),
   (matchPyFormat, "Python-style placeholder".toList)]

/-- The minimal placeholder forms listed in the Python source. -/
def minimalForms : List (List Char) :=
  [[lbrace, rbrace], ['%', 's'], ['%', 'd']]

/-- The issue dictionary built for one flagged placeholder match. -/
def mkPlaceholderIssue (text desc : List Char) (s e : Nat) : Issue where
  type := "placeholder_issue".toList
  original := pySlice text s e
  suggestion := "Verify placeholder content".toList
  start := s
  end_ := e
  severity := "warning".toList
  reason := "Empty or minimal ".toList ++ lowerStr desc
  source := "validation".toList
  definition := []

/-- `TerminologyChecker._check_placeholders`: each family is scanned
independently; a match is flagged when its text has length at most two or
is one of the minimal forms.  The `language` argument is ignored by the
Python code.  (The per-pattern `try/except re.error` in the source can
never fire: the four patterns are hard-coded valid regexes.) -/
def check_placeholders (text language : List Char) : List Issue :=
  placeholderFamilies.flatMap
    (fun fd =>
      (finditer fd.1 text).filterMap
        (fun se =>
          let ph := pySlice text se.1 se.2
          if ph.length ≤ 2 ∨ ph ∈ minimalForms then
            some (mkPlaceholderIssue text fd.2 se.1 se.2)
          else none))

/-- Modelled from the spec: the Placeholder Validator flags a match when
"it is empty or is exactly one of the minimal forms".  Identical to
`check_placeholders` except for the flagging condition, for comparison. -/
def check_placeholders_spec (text language : List Char) : List Issue :=
  placeholderFamilies.flatMap
    (fun fd =>
      (finditer fd.1 text).filterMap
        (fun se =>
          let ph := pySlice text se.1 se.2
          if ph = [] ∨ ph ∈ minimalForms then
            some (mkPlaceholderIssue text fd.2 se.1 se.2)
          else none))

/-- The pure contents of the SQLite store: the `terms` and `rules` tables. -/
structure DBState where
  terms : List Term
  rules : List Rule
  deriving DecidableEq, Repr

/-- The six default rules seeded by `_create_empty_database`, in insertion
order. -/
def default_rules : List Rule :=
  [⟨"en".toList, "\\blogin\\b".toList, "sign in".toList,
    "preferred_synonym".toList, "warning".toList,
    "Prefer \"sign in\" over \"login\"".toList⟩,
   ⟨"en".toList, "\\bLogout\\b".toList, "Sign out".toList,
    "preferred_synonym".toList, "warning".toList,
    "Prefer \"Sign out\" over \"Logout\"".toList⟩,
   ⟨"en".toList, "\\be-mail\\b".toList, "email".toList,
    "preferred_synonym".toList, "warning".toList,
    "Use \"email\" without hyphen".toList⟩,
   ⟨"en".toList, "\\bOk\\b".toList, "OK".toList,
    "preferred_synonym".toList, "info".toList,
    "Use \"OK\" in all caps".toList⟩,
   ⟨"jp".toList, "ログイン".toList, "サインイン".toList,
    "preferred_synonym".toList, "warning".toList,
    "Use \"サインイン\" instead of \"ログイン\"".toList⟩,
   ⟨"jp".toList, "ログアウト".toList, "サインアウト".toList,
    "preferred_synonym".toList, "warning".toList,
    "Use \"サインアウト\" instead of \"ログアウト\"".toList⟩]

/-- `TerminologyDatabase._create_empty_database`: empty `terms` table,
`rules` table seeded with the six default rules. -/
def create_empty_database : DBState :=
  { terms := [], rules := default_rules }

/-- `TerminologyDatabase.ensure_database_exists`: `none` models a missing
database file (create and seed it); an existing file is left untouched. -/
def ensure_database_exists : Option DBState → DBState
  | none => create_empty_database
  | some db => db

/-- `TerminologyDatabase.add_term`: inserts the row unconditionally (all
`NOT NULL` columns receive Python strings, which are never SQL `NULL`, so
the insert succeeds) and returns `True`. -/
def add_term (db : DBState)
    (source_lang target_lang source_term target_term term_type domain
      definition : List Char) : DBState × Bool :=
  ({ db with
      terms := db.terms ++
        [⟨source_lang, target_lang, source_term, target_term, term_type,
          domain, definition⟩] }, true)

/-- The control flow of `TerminologyChecker.check_text`: the four
issue-gathering steps run in order inside one `try` block; `issues` is
extended in place after each step, so an exception in step `k` (modelled
by `Except.error`) is caught by the single engine-level `except` and the
issues accumulated by steps `1 … k-1` are returned as they are — the later
steps, the deduplication and the sort are all skipped. -/
def check_text_steps (s1 s2 s3 s4 : Except Unit (List Issue)) : List Issue :=
  match s1 with
  | .error _ => []
  | .ok l1 =>
    match s2 with
    | .error _ => l1
    | .ok l2 =>
      match s3 with
      | .error _ => l1 ++ l2
      | .ok l3 =>
        match s4 with
        | .error _ => l1 ++ l2 ++ l3
        | .ok l4 => sortByStart (deduplicate_issues (l1 ++ l2 ++ l3 ++ l4))

/-- `TerminologyChecker.check_text` on the success path: Term Store, Rule
Store, Placeholder Validator, then the external (LLM) issues `external`
(empty when no provider is configured), merged, deduplicated and sorted.
The pure store queries of this model never raise, so this is
`check_text_steps` with every step succeeding. -/
def check_text (db : DBState) (engine : RegexEngine) (external : List Issue)
    (text language : List Char) : List Issue :=
  check_text_steps
    (Except.ok (find_term_suggestions db.terms text language))
    (Except.ok (find_rule_violations db.rules engine text language))
    (Except.ok (check_placeholders text language))
    (Except.ok external)

/-- A trivial regex engine that fails to compile every pattern; used to
instantiate `RegexEngine` at concrete inputs. -/
def noEngine : RegexEngine where
  apply := fun _ _ => none
  valid := fun _ _ _ h => nomatch h

/-! ### Deduplication lemmas -/

theorem dedupGo_sublist : ∀ (l : List Issue) (seen),
    (dedupGo seen l).Sublist l := by
  intro l
  induction l with
  | nil => intro seen; simp [dedupGo]
  | cons i rest ih =>
    intro seen
    simp only [dedupGo]
    split
    · exact (ih seen).cons i
    · exact (ih _).cons₂ i

theorem dedupGo_eq_keepFirsts : ∀ (l : List Issue) (seen),
    dedupGo seen l = keepFirsts (l.filter (fun x => dedupKey x ∉ seen)) := by
  intro l
  induction l with
  | nil => intro seen; simp [dedupGo, keepFirsts]
  | cons i rest ih =>
    intro seen
    by_cases h : dedupKey i ∈ seen
    · have e1 : dedupGo seen (i :: rest) = dedupGo seen rest := by
        simp [dedupGo, h]
      have e2 : (i :: rest).filter (fun x => dedupKey x ∉ seen) =
          rest.filter (fun x => dedupKey x ∉ seen) := by
        simp [List.filter_cons, h]
      rw [e1, e2, ih]
    · have e1 : dedupGo seen (i :: rest) =
          i :: dedupGo (dedupKey i :: seen) rest := by
        simp [dedupGo, h]
      have e2 : (i :: rest).filter (fun x => dedupKey x ∉ seen) =
          i :: rest.filter (fun x => dedupKey x ∉ seen) := by
        simp [List.filter_cons, h]
      rw [e1, e2, ih]
      simp only [keepFirsts]
      congr 1
      rw [List.filter_filter]
      congr 1
      apply List.filter_congr
      intro y _
      by_cases h1 : dedupKey y = dedupKey i <;> by_cases h2 : dedupKey y ∈ seen <;>
        simp [h1, h2]

theorem keepFirsts_subset : ∀ (l : List Issue) (x : Issue),
    x ∈ keepFirsts l → x ∈ l := by
  intro l
  induction l using keepFirsts.induct with
  | case1 => intro x hx; simp [keepFirsts] at hx
  | case2 y ys ih =>
    intro x hx
    rw [keepFirsts] at hx
    rcases List.mem_cons.mp hx with h | h
    · exact h ▸ List.mem_cons_self y ys
    · exact List.mem_cons_of_mem y (List.mem_of_mem_filter (ih x h))

theorem keepFirsts_pairwise : ∀ l : List Issue,
    (keepFirsts l).Pairwise (fun a b => dedupKey a ≠ dedupKey b) := by
  intro l
  induction l using keepFirsts.induct with
  | case1 => simp [keepFirsts]
  | case2 y ys ih =>
    rw [keepFirsts]
    refine List.Pairwise.cons ?_ ih
    intro z hz
    have hz2 := List.mem_filter.mp (keepFirsts_subset _ _ hz)
    intro hk
    rw [← hk] at hz2
    simp at hz2

theorem deduplicate_sublist (l : List Issue) :
    (deduplicate_issues l).Sublist l :=
  dedupGo_sublist l []

theorem deduplicate_eq_keepFirsts (l : List Issue) :
    deduplicate_issues l = keepFirsts l := by
  have h := dedupGo_eq_keepFirsts l []
  simpa [deduplicate_issues] using h

/-! ### Sorting lemmas -/

theorem insertBy_perm (le : α → α → Bool) (x : α) :
    ∀ l : List α, (insertBy le x l).Perm (x :: l) := by
  intro l
  induction l with
  | nil => simp [insertBy]
  | cons y ys ih =>
    simp only [insertBy]
    split
    · exact List.Perm.refl _
    · exact (ih.cons y).trans (List.Perm.swap x y ys)

theorem sortBy_perm (le : α → α → Bool) :
    ∀ l : List α, (sortBy le l).Perm l := by
  intro l
  induction l with
  | nil => simp [sortBy]
  | cons x xs ih =>
    exact ((insertBy_perm le x (sortBy le xs)).trans (ih.cons x))

theorem insertByStart_pairwise (x : Issue) :
    ∀ l : List Issue, l.Pairwise (fun a b => a.start ≤ b.start) →
      (insertBy (fun a b => a.start ≤ b.start) x l).Pairwise
        (fun a b => a.start ≤ b.start) := by
  intro l
  induction l with
  | nil => intro _; simp [insertBy]
  | cons y ys ih =>
    intro hp
    rcases List.pairwise_cons.mp hp with ⟨hy, hys⟩
    simp only [insertBy]
    split
    · rename_i hle
      refine List.pairwise_cons.mpr ⟨?_, hp⟩
      intro z hz
      have hle2 : x.start ≤ y.start := by simpa using hle
      rcases List.mem_cons.mp hz with h | h
      · exact h ▸ hle2
      · exact le_trans hle2 (hy z h)
    · rename_i hgt
      have hyx : y.start ≤ x.start := by
        have := of_decide_eq_false (Bool.of_not_eq_true hgt)
        omega
      refine List.pairwise_cons.mpr ⟨?_, ih hys⟩
      intro z hz
      have := (insertBy_perm (fun a b => a.start ≤ b.start) x ys).mem_iff.mp hz
      rcases List.mem_cons.mp this with h | h
      · exact h ▸ hyx
      · exact hy z h

theorem sortByStart_pairwise : ∀ l : List Issue,
    (sortByStart l).Pairwise (fun a b => a.start ≤ b.start) := by
  intro l
  induction l with
  | nil => simp [sortByStart, sortBy]
  | cons x xs ih => exact insertByStart_pairwise x _ ih

theorem filter_insertByStart (s : Nat) (x : Issue) :
    ∀ l : List Issue,
      (insertBy (fun a b => a.start ≤ b.start) x l).filter
          (fun i => i.start == s) =
        if x.start = s then x :: l.filter (fun i => i.start == s)
        else l.filter (fun i => i.start == s) := by
  intro l
  induction l with
  | nil =>
    by_cases hx : x.start = s <;> simp [insertBy, List.filter_cons, hx]
  | cons y ys ih =>
    simp only [insertBy]
    split
    · by_cases hx : x.start = s <;> simp [List.filter_cons, hx]
    · rename_i hgt
      have hyx : y.start < x.start := by
        have := of_decide_eq_false (Bool.of_not_eq_true hgt)
        omega
      by_cases hx : x.start = s
      · have hy : ¬(y.start = s) := by omega
        simp [List.filter_cons, ih, hx, hy]
      · simp [List.filter_cons, ih, hx]

theorem filter_sortByStart (s : Nat) : ∀ l : List Issue,
    (sortByStart l).filter (fun i => i.start == s) =
      l.filter (fun i => i.start == s) := by
  intro l
  induction l with
  | nil => simp [sortByStart, sortBy]
  | cons x xs ih =>
    show (insertBy _ x (sortByStart xs)).filter _ = _
    rw [filter_insertByStart]
    by_cases hx : x.start = s <;> simp [List.filter_cons, hx, ih]

theorem sortByStart_perm (l : List Issue) : (sortByStart l).Perm l :=
  sortBy_perm _ l

/-! ### Claims C1, C2, C4, C9, C10 -/

/-- Claim C1: in the list produced by the engine's deduplication step (and
hence in the returned, sorted list) no two issues share the identical
4-tuple `(start, end, original, kind)`, and among issues with an equal
4-tuple exactly the first one in merge order is kept (`keepFirsts`), all
later ones being dropped. -/
theorem claim_C1 (l : List Issue) :
    deduplicate_issues l = keepFirsts l ∧
    (deduplicate_issues l).Pairwise (fun a b => dedupKey a ≠ dedupKey b) ∧
    (sortByStart (deduplicate_issues l)).Pairwise
      (fun a b => dedupKey a ≠ dedupKey b) := by
  have h1 := deduplicate_eq_keepFirsts l
  have h2 : (deduplicate_issues l).Pairwise
      (fun a b => dedupKey a ≠ dedupKey b) := by
    rw [h1]; exact keepFirsts_pairwise l
  refine ⟨h1, h2, ?_⟩
  exact (List.Perm.pairwise_iff (fun h => h.symm)
    (sortByStart_perm (deduplicate_issues l))).mpr h2

/-- Claim C2: for every store, regex engine, external issue list and input,
the list returned by `check_text` is sorted ascending by `start_offset`
only, and the sort is stable: for every fixed `start` value the issues
with that `start` appear in exactly the order of the deduplicated merge of
the four sources (Term Store, Rule Store, Placeholder Validator, external),
which itself preserves merge order (it is a sublist of the merge). -/
theorem claim_C2 (db : DBState) (engine : RegexEngine) (external : List Issue)
    (text language : List Char) :
    (check_text db engine external text language).Pairwise
        (fun a b => a.start ≤ b.start) ∧
    (∀ s : Nat,
      (check_text db engine external text language).filter
          (fun i => i.start == s) =
        (deduplicate_issues
            (find_term_suggestions db.terms text language ++
              find_rule_violations db.rules engine text language ++
              check_placeholders text language ++ external)).filter
          (fun i => i.start == s)) ∧
    (deduplicate_issues
        (find_term_suggestions db.terms text language ++
          find_rule_violations db.rules engine text language ++
          check_placeholders text language ++ external)).Sublist
      (find_term_suggestions db.terms text language ++
        find_rule_violations db.rules engine text language ++
        check_placeholders text language ++ external) := by
  refine ⟨sortByStart_pairwise _, ?_, deduplicate_sublist _⟩
  intro s
  exact filter_sortByStart s _

/-- Claim C4 (amended): an exception in any of the four issue-gathering
steps is caught at the engine level and `check_text` still returns without
error; but a failure in step `k` skips the later steps, the deduplication
and the sort, returning exactly the concatenation of the issues gathered
by the steps before `k`; only when all four steps succeed is the combined
list deduplicated and sorted. -/
theorem claim_C4 (l1 l2 l3 l4 : List Issue) :
    check_text_steps (Except.error ()) (Except.ok l2) (Except.ok l3)
        (Except.ok l4) = [] ∧
    check_text_steps (Except.ok l1) (Except.error ()) (Except.ok l3)
        (Except.ok l4) = l1 ∧
    check_text_steps (Except.ok l1) (Except.ok l2) (Except.error ())
        (Except.ok l4) = l1 ++ l2 ∧
    check_text_steps (Except.ok l1) (Except.ok l2) (Except.ok l3)
        (Except.error ()) = l1 ++ l2 ++ l3 ∧
    check_text_steps (Except.ok l1) (Except.ok l2) (Except.ok l3)
        (Except.ok l4) =
      sortByStart (deduplicate_issues (l1 ++ l2 ++ l3 ++ l4)) :=
  ⟨rfl, rfl, rfl, rfl, rfl⟩

/-- A concrete issue used for counterexamples. -/
def sampleIssue : Issue where
  type := "terminology_match".toList
  original := "login".toList
  suggestion := "sign in".toList
  start := 7
  end_ := 12
  severity := "info".toList
  reason := "Terminology database suggestion".toList
  source := "database".toList
  definition := []

/-- Claim C4 counterexample: when step 1 (the Term Store query) raises,
the issue produced by step 2 (the Rule Store) is NOT in the returned list,
refuting "the remaining steps' issues are still gathered, deduplicated,
sorted, and returned". -/
theorem claim_C4_counterexample :
    sampleIssue ∉ check_text_steps (Except.error ())
      (Except.ok [sampleIssue]) (Except.ok []) (Except.ok []) := by
  simp [check_text_steps]

/-- Claim C9: store initialization is idempotent with respect to seed
data: a missing database file is created with exactly the six default
rules, and initializing over an already-initialized database returns it
untouched, so the seeds are never re-inserted or duplicated. -/
theorem claim_C9 :
    ensure_database_exists none = create_empty_database ∧
    create_empty_database.rules = default_rules ∧
    default_rules.length = 6 ∧
    ∀ s : Option DBState,
      ensure_database_exists (some (ensure_database_exists s)) =
        ensure_database_exists s :=
  ⟨rfl, rfl, rfl, fun _ => rfl⟩

/-- Claim C10 (amended): `add_term` performs no validation at all — it
succeeds (returns `True`) for every input, including empty strings, and
appends the row exactly as given; the store therefore does not maintain
the non-emptiness invariant (the schema's `NOT NULL` only excludes SQL
`NULL`, which a Python string never is). -/
theorem claim_C10 (db : DBState)
    (sl tl st tt ty dom defn : List Char) :
    (add_term db sl tl st tt ty dom defn).2 = true ∧
    (add_term db sl tl st tt ty dom defn).1.terms =
      db.terms ++ [⟨sl, tl, st, tt, ty, dom, defn⟩] :=
  ⟨rfl, rfl⟩

/-- Claim C10 counterexample: `add_term` with an empty `source_lang`
succeeds and stores a term record violating the claimed non-emptiness
invariant. -/
theorem claim_C10_counterexample :
    (add_term create_empty_database [] "en".toList "deploy".toList
        "デプロイ".toList "preferred".toList [] []).2 = true ∧
    (add_term create_empty_database [] "en".toList "deploy".toList
        "デプロイ".toList "preferred".toList [] []).1.terms =
      [⟨[], "en".toList, "deploy".toList, "デプロイ".toList,
        "preferred".toList, [], []⟩] :=
  ⟨rfl, rfl⟩

/-! ### Claim C8 -/

/-- Claim C8: `find_rule_violations` skips any stored rule whose pattern
fails to compile (the engine returns `none` for it) and still applies
every other rule of the batch: deleting the malformed rule from the rule
list leaves the result unchanged, so one malformed pattern never aborts
the batch and never suppresses issues from other rules. -/
theorem claim_C8 (engine : RegexEngine) (rules1 rules2 : List Rule)
    (bad : Rule) (text language : List Char)
    (h : engine.apply bad.pattern text = none) :
    find_rule_violations (rules1 ++ bad :: rules2) engine text language =
      find_rule_violations (rules1 ++ rules2) engine text language := by
  simp only [find_rule_violations, List.filter_append, List.filter_cons,
    List.flatMap_append]
  by_cases hb : (bad.language == language) = true
  · simp [hb, h]
  · simp [hb]

/-- A rule whose pattern `(` is not a valid regular expression. -/
def badRule : Rule where
  language := "en".toList
  pattern := "(".toList
  replacement := "x".toList
  rule_type := "preferred_synonym".toList
  severity := "warning".toList
  description := []

/-- Witness for claim C8: a concrete engine refusing the malformed
pattern, inserted before the six default rules, changes nothing. -/
theorem claim_C8_witness :
    noEngine.apply badRule.pattern "login".toList = none ∧
    find_rule_violations ([] ++ badRule :: default_rules) noEngine
        "login".toList "en".toList =
      find_rule_violations ([] ++ default_rules) noEngine
        "login".toList "en".toList :=
  ⟨rfl, claim_C8 noEngine [] default_rules badRule "login".toList
    "en".toList rfl⟩

/-! ### Claim C7 -/

/-- Claim C7 counterexample: for the unsupported language `"fr"` and the
text `"{}"` the checker returns a non-empty issue list — the Placeholder
Validator runs regardless of language — refuting the claim that every
text yields an empty list for a language outside the supported set. -/
theorem claim_C7_counterexample :
    check_text create_empty_database noEngine [] [lbrace, rbrace]
      "fr".toList ≠ [] := by decide

/-- Claim C7 (amended): for any language outside the supported set
(neither `"en"` nor `"jp"`), `check_text` over a freshly initialized store
raises no error; the Term and Rule sources contribute zero issues, and the
result is exactly the sorted, deduplicated output of the Placeholder
Validator — in particular empty whenever the text contains no flagged
placeholder. -/
theorem claim_C7 (engine : RegexEngine) (text language : List Char)
    (h1 : language ≠ "en".toList) (h2 : language ≠ "jp".toList) :
    check_text create_empty_database engine [] text language =
      sortByStart (deduplicate_issues (check_placeholders text language)) := by
  have h1' : ¬(['e', 'n'] = language) := fun he => h1 he.symm
  have h2' : ¬(['j', 'p'] = language) := fun he => h2 he.symm
  have hterm :
      find_term_suggestions create_empty_database.terms text language =
        [] := rfl
  have hrule :
      find_rule_violations create_empty_database.rules engine text
        language = [] := by
    show find_rule_violations default_rules engine text language = []
    simp [find_rule_violations, default_rules, h1', h2']
  show sortByStart (deduplicate_issues
      (find_term_suggestions create_empty_database.terms text language ++
        find_rule_violations create_empty_database.rules engine text
          language ++ check_placeholders text language ++ [])) = _
  rw [hterm, hrule]
  simp

/-- Witness for claim C7 at the concrete scenario of the spec:
`check("Bonjour", "fr")` on a fresh store. -/
theorem claim_C7_witness :
    "fr".toList ≠ "en".toList ∧ "fr".toList ≠ "jp".toList ∧
    check_text create_empty_database noEngine [] "Bonjour".toList
        "fr".toList =
      sortByStart (deduplicate_issues
        (check_placeholders "Bonjour".toList "fr".toList)) :=
  ⟨by decide, by decide, claim_C7 noEngine "Bonjour".toList "fr".toList
    (by decide) (by decide)⟩

/-! ### Span bounds for the three internal issue sources (claim C3) -/

theorem startsWith_length : ∀ p s : List Char, startsWith p s = true →
    p.length ≤ s.length := by
  intro p
  induction p with
  | nil => intro s _; simp
  | cons a as ih =>
    intro s h
    cases s with
    | nil => simp [startsWith] at h
    | cons b bs =>
      simp only [startsWith, Bool.and_eq_true] at h
      have := ih bs h.2
      simp only [List.length_cons]
      omega

theorem selectFrom_subset (step : Nat) : ∀ (l : List Nat) (m p : Nat),
    p ∈ selectFrom step l m → p ∈ l := by
  intro l
  induction l with
  | nil => intro m p h; simp [selectFrom] at h
  | cons q rest ih =>
    intro m p h
    simp only [selectFrom] at h
    split at h
    · exact List.mem_cons_of_mem q (ih _ p h)
    · rcases List.mem_cons.mp h with h1 | h2
      · exact h1 ▸ List.mem_cons_self _ rest
      · exact List.mem_cons_of_mem q (ih _ p h2)

theorem scanOccs_bounds (pat text : List Char) :
    ∀ se ∈ scanOccs pat text, se.1 ≤ se.2 ∧ se.2 ≤ text.length := by
  intro se hse
  rcases List.mem_map.mp hse with ⟨p, hp, rfl⟩
  have hp2 : p ∈ matchPositions pat text := selectFrom_subset _ _ _ _ hp
  rcases List.mem_filter.mp hp2 with ⟨hrange, hsw⟩
  have hlt : p < text.length + 1 := List.mem_range.mp hrange
  have hle := startsWith_length _ _ hsw
  simp only [lowerStr, List.length_map, List.length_drop] at hle
  constructor
  · simp
  · simp only []
    omega

theorem find_term_suggestions_spans (terms : List Term)
    (text source_lang : List Char) :
    ∀ i ∈ find_term_suggestions terms text source_lang,
      i.start ≤ i.end_ ∧ i.end_ ≤ text.length ∧
        i.original = pySlice text i.start i.end_ := by
  intro i hi
  rcases List.mem_flatMap.mp hi with ⟨t, _, hmem⟩
  rcases List.mem_map.mp hmem with ⟨se, hse, rfl⟩
  rcases scanOccs_bounds t.source_term text se hse with ⟨h1, h2⟩
  exact ⟨h1, h2, rfl⟩

theorem find_rule_violations_spans (rules : List Rule) (engine : RegexEngine)
    (text language : List Char) :
    ∀ i ∈ find_rule_violations rules engine text language,
      i.start ≤ i.end_ ∧ i.end_ ≤ text.length ∧
        i.original = pySlice text i.start i.end_ := by
  intro i hi
  rcases List.mem_flatMap.mp hi with ⟨r, _, hmem⟩
  rcases h : engine.apply r.pattern text with _ | spans
  · rw [h] at hmem
    simp at hmem
  · rw [h] at hmem
    rcases List.mem_map.mp hmem with ⟨se, hse, rfl⟩
    rcases engine.valid r.pattern text spans h se hse with ⟨h1, h2⟩
    exact ⟨h1, h2, rfl⟩

theorem indexOfChar_lt (c : Char) : ∀ l k, indexOfChar c l = some k →
    k < l.length := by
  intro l
  induction l with
  | nil => intro k h; simp [indexOfChar] at h
  | cons d rest ih =>
    intro k h
    simp only [indexOfChar] at h
    split at h
    · simp only [Option.some.injEq] at h
      simp only [List.length_cons]
      omega
    · rcases Option.map_eq_some'.mp h with ⟨j, hj, rfl⟩
      have := ih j hj
      simp only [List.length_cons]
      omega

theorem matchBrace_le : ∀ t L, matchBrace t = some L → L ≤ t.length := by
  intro t L h
  cases t with
  | nil => simp [matchBrace] at h
  | cons c rest =>
    simp only [matchBrace] at h
    split at h
    · rcases Option.map_eq_some'.mp h with ⟨k, hk, rfl⟩
      have := indexOfChar_lt _ _ _ hk
      simp only [List.length_cons]
      omega
    · simp at h

theorem matchPrintf_le : ∀ t L, matchPrintf t = some L → L ≤ t.length := by
  intro t L h
  unfold matchPrintf at h
  split at h
  · split at h
    · simp only [Option.some.injEq] at h
      simp only [List.length_cons]
      omega
    · simp at h
  · simp at h

theorem matchShell_le : ∀ t L, matchShell t = some L → L ≤ t.length := by
  intro t L h
  unfold matchShell at h
  split at h
  · split at h
    · rcases Option.map_eq_some'.mp h with ⟨k, hk, rfl⟩
      have := indexOfChar_lt _ _ _ hk
      simp only [List.length_cons]
      omega
    · simp at h
  · simp at h

theorem matchPyFormat_le : ∀ t L, matchPyFormat t = some L →
    L ≤ t.length := by
  intro t L h
  unfold matchPyFormat at h
  split at h
  · split at h
    · simp at h
    · split at h
      · simp at h
      · split at h
        · rename_i rest k hk hne cget c hc
          split at h
          · simp only [Option.some.injEq] at h
            rcases List.getElem?_eq_some.mp hc with ⟨hlt, _⟩
            simp only [List.length_cons]
            omega
          · simp at h
        · simp at h
  · simp at h

theorem selectSpans_spec : ∀ (cands : List (Nat × Nat)) (m : Nat)
    (se : Nat × Nat), se ∈ selectSpans cands m →
      ∃ pl ∈ cands, se = (pl.1, pl.1 + pl.2) := by
  intro cands
  induction cands with
  | nil => intro m se h; simp [selectSpans] at h
  | cons pl rest ih =>
    intro m se h
    simp only [selectSpans] at h
    split at h
    · rcases ih _ se h with ⟨q, hq, he⟩
      exact ⟨q, List.mem_cons_of_mem _ hq, he⟩
    · rcases List.mem_cons.mp h with h1 | h2
      · exact ⟨pl, List.mem_cons_self _ _, h1⟩
      · rcases ih _ se h2 with ⟨q, hq, he⟩
        exact ⟨q, List.mem_cons_of_mem _ hq, he⟩

theorem spanCandidates_spec (m : List Char → Option Nat) (text : List Char) :
    ∀ pl ∈ spanCandidates m text,
      pl.1 ≤ text.length ∧ m (text.drop pl.1) = some pl.2 := by
  intro pl hpl
  rcases List.mem_filterMap.mp hpl with ⟨p, hp, hmap⟩
  rcases Option.map_eq_some'.mp hmap with ⟨len, hlen, heq⟩
  cases heq
  have := List.mem_range.mp hp
  exact ⟨by omega, hlen⟩

theorem placeholder_matcher_le :
    ∀ fd ∈ placeholderFamilies, ∀ t L, fd.1 t = some L → L ≤ t.length := by
  intro fd hfd
  simp only [placeholderFamilies, List.mem_cons, List.not_mem_nil,
    or_false] at hfd
  rcases hfd with rfl | rfl | rfl | rfl
  · exact matchBrace_le
  · exact matchPrintf_le
  · exact matchShell_le
  · exact matchPyFormat_le

theorem check_placeholders_spans (text language : List Char) :
    ∀ i ∈ check_placeholders text language,
      i.start ≤ i.end_ ∧ i.end_ ≤ text.length ∧
        i.original = pySlice text i.start i.end_ := by
  intro i hi
  rcases List.mem_flatMap.mp hi with ⟨fd, hfd, hmem⟩
  rcases List.mem_filterMap.mp hmem with ⟨se, hse, hopt⟩
  simp only at hopt
  have hi_eq : i = mkPlaceholderIssue text fd.2 se.1 se.2 := by
    split at hopt
    · exact (Option.some.injEq _ _ ▸ hopt).symm
    · simp at hopt
  rcases selectSpans_spec _ _ se hse with ⟨pl, hpl, hse_eq⟩
  rcases spanCandidates_spec fd.1 text pl hpl with ⟨hp_le, hm⟩
  have hL := placeholder_matcher_le fd hfd _ _ hm
  rw [List.length_drop] at hL
  subst hi_eq
  rw [hse_eq]
  show pl.1 ≤ pl.1 + pl.2 ∧ pl.1 + pl.2 ≤ text.length ∧
    pySlice text pl.1 (pl.1 + pl.2) = pySlice text pl.1 (pl.1 + pl.2)
  exact ⟨by omega, by omega, rfl⟩

/-- Claim C3: every issue returned by `check_text` that does not come from
the external analysis source (every externally contributed issue carries
source `llm_analysis`) has in-range offsets `0 ≤ start ≤ end ≤ len(text)`
and satisfies `text[start:end] == original`. -/
theorem claim_C3 (db : DBState) (engine : RegexEngine) (external : List Issue)
    (text language : List Char)
    (hext : ∀ e ∈ external, e.source = "llm_analysis".toList) :
    ∀ i ∈ check_text db engine external text language,
      i.source ≠ "llm_analysis".toList →
      i.start ≤ i.end_ ∧ i.end_ ≤ text.length ∧
        i.original = pySlice text i.start i.end_ := by
  intro i hi hsrc
  have hi2 : i ∈ find_term_suggestions db.terms text language ++
      find_rule_violations db.rules engine text language ++
      check_placeholders text language ++ external := by
    have h1 : i ∈ deduplicate_issues
        (find_term_suggestions db.terms text language ++
          find_rule_violations db.rules engine text language ++
          check_placeholders text language ++ external) :=
      (sortByStart_perm _).mem_iff.mp hi
    exact (deduplicate_sublist _).subset h1
  rcases List.mem_append.mp hi2 with h123 | hx
  · rcases List.mem_append.mp h123 with h12 | h3
    · rcases List.mem_append.mp h12 with h1 | h2
      · exact find_term_suggestions_spans db.terms text language i h1
      · exact find_rule_violations_spans db.rules engine text language i h2
    · exact check_placeholders_spans text language i h3
  · exact absurd (hext i hx) hsrc

/-- Witness for claim C3 at concrete inputs (empty external source,
default store, text `"{}"`, language `"en"`). -/
theorem claim_C3_witness :
    (∀ e ∈ ([] : List Issue), e.source = "llm_analysis".toList) ∧
    ∀ i ∈ check_text create_empty_database noEngine [] [lbrace, rbrace]
        "en".toList,
      i.source ≠ "llm_analysis".toList →
      i.start ≤ i.end_ ∧ i.end_ ≤ [lbrace, rbrace].length ∧
        i.original = pySlice [lbrace, rbrace] i.start i.end_ :=
  ⟨fun e he => absurd he (List.not_mem_nil e),
   claim_C3 create_empty_database noEngine [] [lbrace, rbrace] "en".toList
     (fun e he => absurd he (List.not_mem_nil e))⟩

/-! ### Placeholder flagging classification (claim C6) -/

theorem indexOfChar_zero (c : Char) : ∀ l, indexOfChar c l = some 0 →
    ∃ rest, l = c :: rest := by
  intro l h
  cases l with
  | nil => simp [indexOfChar] at h
  | cons d rest =>
    simp only [indexOfChar] at h
    split at h
    · rename_i hd
      exact ⟨rest, by rw [show d = c from by simpa using hd]⟩
    · rcases Option.map_eq_some'.mp h with ⟨j, _, hj⟩
      omega

theorem matchBrace_content : ∀ t L, matchBrace t = some L →
    2 ≤ L ∧ (L = 2 → t.take 2 = [lbrace, rbrace]) := by
  intro t L h
  cases t with
  | nil => simp [matchBrace] at h
  | cons c rest =>
    simp only [matchBrace] at h
    split at h
    · rename_i hc
      rcases Option.map_eq_some'.mp h with ⟨k, hk, hL⟩
      refine ⟨by omega, ?_⟩
      intro h2
      have hk0 : k = 0 := by omega
      subst hk0
      rcases indexOfChar_zero _ _ hk with ⟨rest', hrest⟩
      subst hrest
      have hceq : c = lbrace := by simpa using hc
      subst hceq
      rfl
    · simp at h

theorem matchPrintf_content : ∀ t L, matchPrintf t = some L →
    L = 2 ∧ (t.take 2 = ['%', 's'] ∨ t.take 2 = ['%', 'd']) := by
  intro t L h
  unfold matchPrintf at h
  split at h
  · rename_i c rest
    split at h
    · rename_i hc
      simp only [Option.some.injEq] at h
      refine ⟨h.symm, ?_⟩
      have hc' : c = 's' ∨ c = 'd' := by
        simpa using hc
      rcases hc' with h1 | h1
      · subst h1; left; rfl
      · subst h1; right; rfl
    · simp at h
  · simp at h

theorem matchShell_ge : ∀ t L, matchShell t = some L → 3 ≤ L := by
  intro t L h
  unfold matchShell at h
  split at h
  · split at h
    · rcases Option.map_eq_some'.mp h with ⟨k, _, hL⟩
      omega
    · simp at h
  · simp at h

theorem matchPyFormat_ge : ∀ t L, matchPyFormat t = some L → 5 ≤ L := by
  intro t L h
  unfold matchPyFormat at h
  split at h
  · split at h
    · simp at h
    · split at h
      · simp at h
      · split at h
        · rename_i rest k hk hne cget c hc
          split at h
          · simp only [Option.some.injEq] at h
            have hk1 : k ≠ 0 := by simpa using hne
            omega
          · simp at h
        · simp at h
  · simp at h

theorem minimalForms_length : ∀ ph ∈ minimalForms, ph.length = 2 := by
  intro ph hph
  simp only [minimalForms, List.mem_cons, List.not_mem_nil, or_false] at hph
  rcases hph with rfl | rfl | rfl <;> rfl

theorem pySlice_add (t : List Char) (p L : Nat) :
    pySlice t p (p + L) = (t.drop p).take L := by
  unfold pySlice
  rw [List.drop_take]
  congr 1
  omega

theorem finditer_spec (m : List Char → Option Nat) (text : List Char) :
    ∀ se ∈ finditer m text, ∃ p L, se = (p, p + L) ∧ p ≤ text.length ∧
      m (text.drop p) = some L := by
  intro se hse
  rcases selectSpans_spec _ _ se hse with ⟨pl, hpl, he⟩
  rcases spanCandidates_spec m text pl hpl with ⟨h1, h2⟩
  exact ⟨pl.1, pl.2, he, h1, h2⟩

theorem placeholder_flag_iff (fd : (List Char → Option Nat) × List Char)
    (hfd : fd ∈ placeholderFamilies) (text : List Char) (se : Nat × Nat)
    (hse : se ∈ finditer fd.1 text) :
    ((pySlice text se.1 se.2).length ≤ 2 ∨
        pySlice text se.1 se.2 ∈ minimalForms) ↔
      (pySlice text se.1 se.2 = [] ∨
        pySlice text se.1 se.2 ∈ minimalForms) := by
  rcases finditer_spec fd.1 text se hse with ⟨p, L, rfl, hp, hm⟩
  dsimp only
  have hLle : L ≤ (text.drop p).length := placeholder_matcher_le fd hfd _ _ hm
  have hslice : pySlice text p (p + L) = (text.drop p).take L :=
    pySlice_add _ _ _
  have hlen : (pySlice text p (p + L)).length = L := by
    rw [hslice, List.length_take]
    omega
  simp only [placeholderFamilies, List.mem_cons, List.not_mem_nil,
    or_false] at hfd
  rcases hfd with rfl | rfl | rfl | rfl
  · rcases matchBrace_content _ _ hm with ⟨hge, hcont⟩
    constructor
    · rintro (hle | hmem)
      · right
        have hL2 : L = 2 := by omega
        rw [hslice, hL2, hcont hL2]
        simp [minimalForms]
      · exact Or.inr hmem
    · rintro (hnil | hmem)
      · exfalso
        rw [hnil] at hlen
        simp at hlen
        omega
      · exact Or.inr hmem
  · rcases matchPrintf_content _ _ hm with ⟨hL2, hcont⟩
    have hmem : pySlice text p (p + L) ∈ minimalForms := by
      rw [hslice, hL2]
      rcases hcont with hc | hc <;> rw [hc] <;> simp [minimalForms]
    constructor <;> intro _ <;> exact Or.inr hmem
  · have hge := matchShell_ge _ _ hm
    constructor
    · rintro (hle | hmem)
      · exfalso; omega
      · exfalso
        have := minimalForms_length _ hmem
        omega
    · rintro (hnil | hmem)
      · exfalso
        rw [hnil] at hlen
        simp at hlen
        omega
      · exfalso
        have := minimalForms_length _ hmem
        omega
  · have hge := matchPyFormat_ge _ _ hm
    constructor
    · rintro (hle | hmem)
      · exfalso; omega
      · exfalso
        have := minimalForms_length _ hmem
        omega
    · rintro (hnil | hmem)
      · exfalso
        rw [hnil] at hlen
        simp at hlen
        omega
      · exfalso
        have := minimalForms_length _ hmem
        omega

/-- Claim C6 (amended): a placeholder match is flagged if and only if its
matched text is empty or exactly one of the minimal forms — and since no
match of the four families is ever empty, exactly `placeholder` matches
equal to one of the minimal forms are flagged (`check_placeholders` equals
the spec-worded `check_placeholders_spec` on every input).  In particular
the shell-style match on `"${}"` itself is NOT flagged (only the inner
brace match is, see the counterexample), and an empty keyword-style
placeholder matches no family at all. -/
theorem claim_C6 (text language : List Char) :
    check_placeholders text language =
      check_placeholders_spec text language := by
  unfold check_placeholders check_placeholders_spec
  apply List.flatMap_congr
  intro fd hfd
  apply List.filterMap_congr
  intro se hse
  have hiff := placeholder_flag_iff fd hfd text se hse
  show (if (pySlice text se.1 se.2).length ≤ 2 ∨
      pySlice text se.1 se.2 ∈ minimalForms then
    some (mkPlaceholderIssue text fd.2 se.1 se.2) else none) =
    (if pySlice text se.1 se.2 = [] ∨
      pySlice text se.1 se.2 ∈ minimalForms then
    some (mkPlaceholderIssue text fd.2 se.1 se.2) else none)
  by_cases hc : pySlice text se.1 se.2 = [] ∨
      pySlice text se.1 se.2 ∈ minimalForms
  · rw [if_pos (hiff.mpr hc), if_pos hc]
  · rw [if_neg (fun h => hc (hiff.mp h)), if_neg hc]

/-- Claim C6 counterexample: the empty keyword-style placeholder `"%()s"`
matches no pattern family and is not flagged at all (no issue is emitted),
and for the text `"${}"` the only flagged issue is the inner brace match
`"{}"` — the shell-style match `"${}"` itself is never flagged.  Both
refute the claim's "in particular" sentence. -/
theorem claim_C6_counterexample :
    check_placeholders ['%', '(', ')', 's'] "en".toList = [] ∧
    (check_placeholders ['$', lbrace, rbrace] "en".toList).map
        (fun i => i.original) = [[lbrace, rbrace]] := by
  constructor
  · decide
  · decide

/-! ### LIKE-filter versus substring occurrence (claim C5) -/

theorem sqlLike_any : ∀ v : List Char, sqlLike ['%'] v = true := by
  intro v
  induction v with
  | nil => simp [sqlLike]
  | cons c t ih => simp [sqlLike, ih]

theorem sqlLike_cons_any (ps t : List Char) (c : Char)
    (h : sqlLike ('%' :: ps) t = true) :
    sqlLike ('%' :: ps) (c :: t) = true := by
  rw [sqlLike.eq_def]
  simp [h]

theorem sqlLike_skip (p w : List Char) (h : sqlLike p w = true) :
    ∀ u : List Char, sqlLike ('%' :: p) (u ++ w) = true := by
  intro u
  induction u with
  | nil =>
    rw [List.nil_append, sqlLike.eq_def]
    simp [h]
  | cons c u' ih => exact sqlLike_cons_any _ _ c ih

theorem sqlLike_append_lit : ∀ (s p v : List Char), sqlLike p v = true →
    sqlLike (s ++ p) (s ++ v) = true := by
  intro s
  induction s with
  | nil => intro p v h; simpa using h
  | cons c s' ih =>
    intro p v h
    by_cases hc : c = '%'
    · subst hc
      show sqlLike ('%' :: (s' ++ p)) ('%' :: (s' ++ v)) = true
      apply sqlLike_cons_any
      rw [sqlLike.eq_def]
      simp [ih p v h]
    · by_cases hu : c = '_'
      · subst hu
        show sqlLike ('_' :: (s' ++ p)) ('_' :: (s' ++ v)) = true
        rw [sqlLike.eq_def]
        simp [ih p v h]
      · show sqlLike (c :: (s' ++ p)) (c :: (s' ++ v)) = true
        rw [sqlLike.eq_def]
        simp [hc, hu, ih p v h]

theorem startsWith_append : ∀ s u : List Char, startsWith s u = true →
    ∃ v, u = s ++ v := by
  intro s
  induction s with
  | nil => intro u _; exact ⟨u, rfl⟩
  | cons a as ih =>
    intro u h
    cases u with
    | nil => simp [startsWith] at h
    | cons b bs =>
      simp only [startsWith, Bool.and_eq_true, beq_iff_eq] at h
      rcases h with ⟨rfl, h2⟩
      rcases ih bs h2 with ⟨v, rfl⟩
      exact ⟨v, rfl⟩

theorem isSubstr_of_startsWith_drop : ∀ (t s : List Char) (p : Nat),
    startsWith s (t.drop p) = true → isSubstr s t = true := by
  intro t
  induction t with
  | nil =>
    intro s p h
    rw [List.drop_nil] at h
    cases s with
    | nil => rfl
    | cons a as => simp [startsWith] at h
  | cons c rest ih =>
    intro s p h
    cases p with
    | zero =>
      rw [List.drop_zero] at h
      simp [isSubstr, h]
    | succ q =>
      rw [List.drop_succ_cons] at h
      have := ih s q h
      simp [isSubstr, this]

theorem exists_startsWith_of_isSubstr : ∀ (t s : List Char),
    isSubstr s t = true →
      ∃ p, p ≤ t.length ∧ startsWith s (t.drop p) = true := by
  intro t
  induction t with
  | nil =>
    intro s h
    refine ⟨0, Nat.le_refl 0, ?_⟩
    cases s with
    | nil => rfl
    | cons a as => simp [isSubstr, List.isEmpty] at h
  | cons c rest ih =>
    intro s h
    simp only [isSubstr, Bool.or_eq_true] at h
    rcases h with h1 | h2
    · exact ⟨0, Nat.zero_le _, by simpa using h1⟩
    · rcases ih s h2 with ⟨p, hp, hs⟩
      refine ⟨p + 1, ?_, ?_⟩
      · simp only [List.length_cons]; omega
      · rw [List.drop_succ_cons]; exact hs

theorem scanOccs_nil_of_not_substr (pat text : List Char)
    (h : isSubstr (lowerStr pat) (lowerStr text) = false) :
    scanOccs pat text = [] := by
  have hmp : matchPositions pat text = [] := by
    unfold matchPositions
    rw [List.filter_eq_nil_iff]
    intro p _ hsw
    have := isSubstr_of_startsWith_drop (lowerStr text) (lowerStr pat) p hsw
    rw [this] at h
    exact Bool.noConfusion h
  unfold scanOccs
  rw [hmp]
  rfl

theorem scanOccs_ne_nil_of_substr (pat text : List Char)
    (h : isSubstr (lowerStr pat) (lowerStr text) = true) :
    scanOccs pat text ≠ [] := by
  rcases exists_startsWith_of_isSubstr _ _ h with ⟨p, hp, hs⟩
  have hlen : (lowerStr text).length = text.length := by
    simp [lowerStr]
  have hmem : p ∈ matchPositions pat text := by
    unfold matchPositions
    rw [List.mem_filter]
    exact ⟨List.mem_range.mpr (by omega), hs⟩
  intro hnil
  unfold scanOccs at hnil
  cases hmp : matchPositions pat text with
  | nil => rw [hmp] at hmem; exact List.not_mem_nil p hmem
  | cons q rest =>
    rw [hmp] at hnil
    simp [selectFrom] at hnil

theorem sqlLike_of_isSubstr : ∀ s t : List Char, isSubstr s t = true →
    sqlLike (likePattern s) t = true := by
  intro s t h
  rcases exists_startsWith_of_isSubstr t s h with ⟨p, _, hs⟩
  rcases startsWith_append s (t.drop p) hs with ⟨v, hv⟩
  have ht : t = t.take p ++ (s ++ v) := by
    conv_lhs => rw [← List.take_append_drop p t]
    rw [hv]
  rw [ht]
  unfold likePattern
  exact sqlLike_skip _ _ (sqlLike_append_lit s ['%'] v (sqlLike_any v)) _

theorem term_flatMap_filter_eq (text source_lang : List Char) :
    ∀ terms : List Term,
      (terms.filter (termSQLFilter source_lang text)).flatMap
          (fun t => (scanOccs t.source_term text).map
            (fun se => mkTermIssue text t se.1 se.2)) =
        (terms.filter (fun t => t.source_lang == source_lang &&
            isSubstr (lowerStr t.source_term) (lowerStr text))).flatMap
          (fun t => (scanOccs t.source_term text).map
            (fun se => mkTermIssue text t se.1 se.2)) := by
  intro terms
  induction terms with
  | nil => rfl
  | cons t rest ih =>
    by_cases hlang : (t.source_lang == source_lang) = true
    · by_cases hocc : isSubstr (lowerStr t.source_term) (lowerStr text) = true
      · have hlike : termSQLFilter source_lang text t = true := by
          unfold termSQLFilter
          rw [hlang, sqlLike_of_isSubstr _ _ hocc]
          rfl
        simp only [List.filter_cons, hlike, hlang, hocc, Bool.and_self,
          if_true, List.flatMap_cons, ih]
      · have hocc' : isSubstr (lowerStr t.source_term) (lowerStr text) =
            false := by
          cases hb : isSubstr (lowerStr t.source_term) (lowerStr text)
          · rfl
          · exact absurd hb hocc
        have hscan : scanOccs t.source_term text = [] :=
          scanOccs_nil_of_not_substr _ _ hocc'
        by_cases hlike : termSQLFilter source_lang text t = true
        · simp [List.filter_cons, hlike, hlang, hocc', hscan, ih]
        · have hlike' : termSQLFilter source_lang text t = false := by
            cases hb : termSQLFilter source_lang text t
            · rfl
            · exact absurd hb hlike
          simp [List.filter_cons, hlike', hlang, hocc', ih]
    · have hlang' : (t.source_lang == source_lang) = false := by
        cases hb : t.source_lang == source_lang
        · rfl
        · exact absurd hb hlang
      have hlike' : termSQLFilter source_lang text t = false := by
        unfold termSQLFilter
        rw [hlang']
        rfl
      simp [List.filter_cons, hlike', hlang', ih]

/-- Claim C5: up to the query's `ORDER BY` permutation, the Term Store
query emits exactly one issue per non-overlapping case-insensitive literal
occurrence (`scanOccs`, never a regex interpretation of the term) of each
stored term whose `source_lang` matches and whose `source_term` occurs as
a case-insensitive substring of the text; each issue carries severity
`info` if the term's `term_type` is `preferred` and `warning` otherwise,
and the occurrence's slice of the text as `original`. -/
theorem claim_C5 (terms : List Term) (text source_lang : List Char) :
    (find_term_suggestions terms text source_lang).Perm
      ((terms.filter (fun t => t.source_lang == source_lang &&
          isSubstr (lowerStr t.source_term) (lowerStr text))).flatMap
        (fun t => (scanOccs t.source_term text).map
          (fun se =>
            ({ type := "terminology_match".toList
               original := pySlice text se.1 se.2
               suggestion := t.target_term
               start := se.1
               end_ := se.2
               severity :=
                 if t.term_type == "preferred".toList then "info".toList
                 else "warning".toList
               reason :=
                 if t.domain = [] then
                   "Terminology database suggestion".toList
                 else
                   "Terminology database suggestion (".toList ++
                     t.domain ++ [')']
               source := "database".toList
               definition := t.definition } : Issue)))) := by
  unfold find_term_suggestions
  refine (List.Perm.flatMap_right _
    (sortBy_perm termQueryLe
      (terms.filter (termSQLFilter source_lang text)))).trans ?_
  rw [term_flatMap_filter_eq]
  exact List.Perm.refl _
